import Mathlib

/-!
Next Bite Timer (`frontend/src/App.jsx`)

A shallow embedding of the timer logic of the `App` component: its three
state cells (`running`, `duration`, `remaining`), the ref `lastMinuteRef`,
the three effects, the handlers and the interval callback, followed by
theorems about them.

Numbers are JavaScript numbers: `Num` holds the finite values as rationals
together with the two infinities and `NaN`, and every arithmetic operation
rounds its exact result to the nearest binary64 value, ties to even (`round`).
The sign of zero is not represented; the code never divides by zero.

React is modelled by explicit state passing.  A handler produces the pending
state; `flush` then plays the render/commit rounds: in each round the effects
whose dependency array changed since the previous render run in the order of
their declaration, reading the state of the render they were created in and
the current value of the ref, and queueing state updates for the next round.
Spoken cues are collected in a list.  The theme and the volume do not
influence the timer and are left out.
-/

namespace NextBite

/-- A JavaScript number: a finite value, `Infinity`, `-Infinity` or `NaN`. -/
inductive Num where
  | fin (q : ℚ)
  | pinf
  | ninf
  | nan
deriving DecidableEq

/-- Exponent of the unit in the last place of a binary64 value of the size of
`q`: 52 below the binade of `q`, and never below that of the subnormals. -/
def ulpExp (q : ℚ) : ℤ := max (Int.log 2 |q|) (-1022) - 52

/-- Nearest integer, ties to the even one. -/
def roundEven (m : ℚ) : ℤ :=
  if m - ⌊m⌋ < 1 / 2 then ⌊m⌋
  else if 1 / 2 < m - ⌊m⌋ then ⌊m⌋ + 1
  else if ⌊m⌋ % 2 = 0 then ⌊m⌋ else ⌊m⌋ + 1

/-- Nearest multiple of the unit in the last place, ties to even. -/
def roundQ (q : ℚ) : ℚ := roundEven (q / 2 ^ ulpExp q) * 2 ^ ulpExp q

/-- Rounding of an exact result to binary64: to nearest, ties to even, with
overflow to the infinities. -/
def round (q : ℚ) : Num :=
  if 2 ^ (1024 : ℕ) ≤ roundQ q then Num.pinf
  else if roundQ q ≤ -2 ^ (1024 : ℕ) then Num.ninf
  else Num.fin (roundQ q)

/-- The comparison `a <= b`. -/
def Num.le : Num → Num → Bool
  | .fin a, .fin b => decide (a ≤ b)
  | .nan, _ => false
  | _, .nan => false
  | .ninf, _ => true
  | _, .pinf => true
  | _, _ => false

/-- The comparison `a < b` (`b > a`). -/
def Num.lt : Num → Num → Bool
  | .fin a, .fin b => decide (a < b)
  | .nan, _ => false
  | _, .nan => false
  | .pinf, _ => false
  | _, .ninf => false
  | _, _ => true

/-- Strict equality `a === b`: `NaN` equals nothing. -/
def Num.seq : Num → Num → Bool
  | .nan, _ => false
  | _, .nan => false
  | a, b => decide (a = b)

/-- The function `Math.max(a, b)`. -/
def Num.max : Num → Num → Num
  | .nan, _ => .nan
  | _, .nan => .nan
  | a, b => if Num.le a b = true then b else a

/-- The sign of a number other than `NaN`. -/
def Num.sgn : Num → ℤ
  | .fin q => if 0 < q then 1 else if q < 0 then -1 else 0
  | .pinf => 1
  | .ninf => -1
  | .nan => 0

/-- The difference `a - b`. -/
def Num.sub : Num → Num → Num
  | .fin a, .fin b => round (a - b)
  | .nan, _ => .nan
  | _, .nan => .nan
  | .pinf, .pinf => .nan
  | .ninf, .ninf => .nan
  | .pinf, _ => .pinf
  | .ninf, _ => .ninf
  | .fin _, .pinf => .ninf
  | .fin _, .ninf => .pinf

/-- The product `a * b`. -/
def Num.mul : Num → Num → Num
  | .fin a, .fin b => round (a * b)
  | .nan, _ => .nan
  | _, .nan => .nan
  | a, b =>
    if 0 < Num.sgn a * Num.sgn b then .pinf
    else if Num.sgn a * Num.sgn b < 0 then .ninf
    else .nan

/-- The quotient `a / b`. -/
def Num.div : Num → Num → Num
  | .fin a, .fin b =>
    if b = 0 then (if 0 < a then .pinf else if a < 0 then .ninf else .nan)
    else round (a / b)
  | .nan, _ => .nan
  | _, .nan => .nan
  | .fin _, _ => .fin 0
  | a, .fin b => if 0 < Num.sgn a * (if b < 0 then -1 else 1) then .pinf else .ninf
  | _, _ => .nan

/-- The function `Math.floor`. -/
def Num.floor : Num → Num
  | .fin q => .fin ⌊q⌋
  | a => a

/-- Integer part, towards zero. -/
def trunc (x : ℚ) : ℤ := if 0 ≤ x then ⌊x⌋ else ⌈x⌉

/-- The remainder `a % b`: it has the sign of `a` and is exact. -/
def Num.mod : Num → Num → Num
  | .fin a, .fin b => if b = 0 then .nan else .fin (a - b * trunc (a / b))
  | .fin a, .pinf => .fin a
  | .fin a, .ninf => .fin a
  | _, _ => .nan

/-- The two texts handed to `speak` (lines 53 and 57). -/
inductive Cue where
  | nextBite
  | timerFinished
deriving DecidableEq

/-- The state cells of `App` (lines 22-24) and the ref `lastMinuteRef` (line 28). -/
structure Timer where
  running : Bool
  duration : Num
  remaining : Num
  lastMinute : Num
deriving DecidableEq

/-- The commands of the widget: the three buttons, an edit of the duration
input and one firing of the interval.  The input has `type="number"`, so its
value is the empty string or a decimal numeral; `typed` is the number the
numeral denotes (`0` for the empty string, as `Number('')` is `0`). -/
inductive Cmd where
  | start
  | pause
  | reset
  | setDuration (typed : ℚ)
  | tick
deriving DecidableEq

/-- State at mount (lines 22-24, 28): `5 * 60 * 1000` milliseconds, stopped. -/
def initial : Timer :=
  { running := false, duration := .fin 300000, remaining := .fin 300000, lastMinute := .fin 0 }

/-- The idle state for a duration `D`: full time left, stopped, nothing announced. -/
def idle (D : Num) : Timer :=
  { running := false, duration := D, remaining := D, lastMinute := .fin 0 }

/-- Effect of lines 30-34 (dependency `duration`): `setRemaining(duration)`,
`lastMinuteRef.current = 0`, `setRunning(false)`.  `rendered` is the render the
effect closes over, `pending` carries the queued state and the ref. -/
def durationEffect (rendered pending : Timer) : Timer :=
  { pending with remaining := rendered.duration, lastMinute := .fin 0, running := false }

/-- Condition of the interval effect, lines 36-45 (dependencies `running`,
`remaining`): the interval exists exactly when `running && remaining > 0`. -/
def intervalActive (s : Timer) : Bool :=
  s.running && Num.lt (.fin 0) s.remaining

/-- Effect of lines 47-60 (dependencies `remaining`, `running`, `duration`,
`volume`). -/
def announceEffect (rendered pending : Timer) : Timer × List Cue :=
  if rendered.running = false ∨ Num.le rendered.remaining (.fin 0) = true then (pending, [])
  else
    let prevMinute := pending.lastMinute
    let minutesPassed :=
      Num.floor (Num.div (Num.sub rendered.duration rendered.remaining) (.fin 60000))
    let a : Timer × List Cue :=
      if Num.lt prevMinute minutesPassed = true ∧
          Num.seq (Num.mod (Num.sub rendered.duration rendered.remaining) (.fin 60000)) (.fin 0)
            = true then
        ({ pending with lastMinute := minutesPassed }, [Cue.nextBite])
      else (pending, [])
    let b : Timer × List Cue :=
      if Num.seq rendered.remaining (.fin 0) = true ∧ rendered.running = true then
        ({ a.1 with running := false }, [Cue.timerFinished])
      else (a.1, [])
    (b.1, a.2 ++ b.2)

/-- One commit: the effects whose dependencies differ between the previous
render `prev` and the current render `cur` run in declaration order.  The
interval effect only manages the interval (see `intervalActive`). -/
def commit (prev cur : Timer) : Timer × List Cue :=
  let p := if cur.duration ≠ prev.duration then durationEffect cur cur else cur
  if cur.remaining ≠ prev.remaining ∨ cur.running ≠ prev.running ∨ cur.duration ≠ prev.duration then
    announceEffect cur p
  else (p, [])

/-- Render rounds after an update: no round when the state cells are unchanged
(React bails out), otherwise a commit and a further round for the updates the
effects queued. -/
def flush : Nat → Timer → Timer → Timer × List Cue
  | 0, _, cur => (cur, [])
  | fuel + 1, prev, cur =>
    if cur.running = prev.running ∧ cur.duration = prev.duration ∧ cur.remaining = prev.remaining then
      (cur, [])
    else
      let r := commit prev cur
      let q := flush fuel cur r.1
      (q.1, r.2 ++ q.2)

/-- Number of rounds played; `flush_settled` shows that no update is left after them. -/
def rounds : Nat := 3

/-- Line 62: `setRunning(true)`. -/
def handleStart (s : Timer) : Timer × List Cue :=
  flush rounds s { s with running := true }

/-- Line 63: `setRunning(false)`. -/
def handlePause (s : Timer) : Timer × List Cue :=
  flush rounds s { s with running := false }

/-- Lines 64-68: `setRunning(false)`, `setRemaining(duration)`, `lastMinuteRef.current = 0`. -/
def handleReset (s : Timer) : Timer × List Cue :=
  flush rounds s { s with running := false, remaining := s.duration, lastMinute := .fin 0 }

/-- The duration line 72 computes from the number typed:
`Math.max(1, Number(value)) * 60 * 1000`, where `Number` rounds the numeral. -/
def newDuration (typed : ℚ) : Num :=
  Num.mul (Num.mul (Num.max (.fin 1) (round typed)) (.fin 60)) (.fin 1000)

/-- Lines 70-73: `min = Math.max(1, Number(value))`, `setDuration(min * 60 * 1000)`. -/
def handleDurationChange (typed : ℚ) (s : Timer) : Timer × List Cue :=
  flush rounds s { s with duration := newDuration typed }

/-- Lines 38-40, the interval callback: `setRemaining(prev => Math.max(prev - 1000, 0))`. -/
def tickCallback (s : Timer) : Timer × List Cue :=
  flush rounds s { s with remaining := Num.max (Num.sub s.remaining (.fin 1000)) (.fin 0) }

/-- One command.  The duration input is `disabled={running}` (line 143), so an
edit reaches `handleDurationChange` only while stopped; the interval callback
fires only while the interval exists. -/
def step : Cmd → Timer → Timer × List Cue
  | .start, s => handleStart s
  | .pause, s => handlePause s
  | .reset, s => handleReset s
  | .setDuration v, s => if s.running = true then (s, []) else handleDurationChange v s
  | .tick, s => if intervalActive s = true then tickCallback s else (s, [])

/-- A sequence of commands, with the cues spoken along the way. -/
def run : List Cmd → Timer → Timer × List Cue
  | [], s => (s, [])
  | c :: cs, s =>
    let r := step c s
    let q := run cs r.1
    (q.1, r.2 ++ q.2)

/-- Start from idle followed by `n` ticks. -/
def startAndTick (D : Num) (n : Nat) : Timer × List Cue :=
  run (Cmd.start :: List.replicate n Cmd.tick) (idle D)

/-- States reachable from the state at mount. -/
def Reachable (s : Timer) : Prop :=
  ∃ cmds : List Cmd, (run cmds initial).1 = s

/-- The finite binary64 values: `k * 2 ^ e` with `|k| < 2 ^ 53`, `e` not below
the exponent of the subnormals, and size below `2 ^ 1024`. -/
def IsDouble (x : ℚ) : Prop :=
  ∃ k e : ℤ, x = k * 2 ^ e ∧ |k| < 2 ^ (53 : ℕ) ∧ -1074 ≤ e ∧ |x| < 2 ^ (1024 : ℕ)

/-- A cell holding a time: a finite binary64 value that is not negative, or `Infinity`. -/
def IsTime : Num → Prop
  | .fin x => IsDouble x ∧ 0 ≤ x
  | .pinf => True
  | _ => False

/-- The announcement effect has nothing left to say in this state. -/
def Settled (s : Timer) : Prop :=
  ¬ (Num.le s.remaining (.fin 0) = false ∧
      Num.lt s.lastMinute
        (Num.floor (Num.div (Num.sub s.duration s.remaining) (.fin 60000))) = true ∧
      Num.seq (Num.mod (Num.sub s.duration s.remaining) (.fin 60000)) (.fin 0) = true)

/-- What every reachable state satisfies (`reachable_wellFormed`). -/
def WellFormed (s : Timer) : Prop :=
  IsTime s.duration ∧ IsTime s.remaining ∧ Num.le s.remaining s.duration = true ∧ Settled s

/-! ## Rounding to binary64 -/

theorem two_zpow_pos (e : ℤ) : (0 : ℚ) < 2 ^ e := zpow_pos (by norm_num) e

theorem roundEven_mem (m : ℚ) : roundEven m = ⌊m⌋ ∨ roundEven m = ⌊m⌋ + 1 := by
  unfold roundEven
  split_ifs <;> simp

theorem roundEven_intCast (n : ℤ) : roundEven (n : ℚ) = n := by
  simp [roundEven]

theorem roundEven_le (m : ℚ) (n : ℤ) (h : m ≤ n) : roundEven m ≤ n := by
  rcases lt_or_eq_of_le h with h1 | h1
  · have h2 : ⌊m⌋ < n := Int.floor_lt.mpr h1
    rcases roundEven_mem m with e | e <;> omega
  · rw [h1, roundEven_intCast]

theorem le_roundEven (m : ℚ) (n : ℤ) (h : (n : ℚ) ≤ m) : n ≤ roundEven m := by
  have h2 : n ≤ ⌊m⌋ := Int.le_floor.mpr h
  rcases roundEven_mem m with e | e <;> omega

theorem ulpExp_ge (q : ℚ) : -1074 ≤ ulpExp q := by
  unfold ulpExp
  have := le_max_right (Int.log 2 |q|) (-1022)
  omega

/-- Every number is less than `2 ^ 53` units in the last place of its size. -/
theorem abs_lt_ulp (q : ℚ) : |q| < 2 ^ (ulpExp q + 53) := by
  have h1 : |q| < ((2 : ℕ) : ℚ) ^ (Int.log 2 |q| + 1) :=
    Int.lt_zpow_succ_log_self (by norm_num) |q|
  have h2 : Int.log 2 |q| + 1 ≤ ulpExp q + 53 := by
    unfold ulpExp
    have := le_max_left (Int.log 2 |q|) (-1022)
    omega
  have h3 : ((2 : ℕ) : ℚ) ^ (Int.log 2 |q| + 1) ≤ 2 ^ (ulpExp q + 53) := by
    rw [Nat.cast_ofNat]
    exact zpow_le_zpow_right₀ (by norm_num) h2
  exact lt_of_lt_of_le h1 h3

/-- A multiple `k * 2 ^ e` of at most 53 bits lies on the grid of its own size. -/
theorem ulpExp_le_of_bits (x : ℚ) (k e : ℤ) (hx : x = k * 2 ^ e) (hk : |k| < 2 ^ (53 : ℕ))
    (he : -1074 ≤ e) (h0 : x ≠ 0) : ulpExp x ≤ e := by
  have hpos : 0 < |x| := abs_pos.mpr h0
  have hk' : |(k : ℚ)| < 2 ^ (53 : ℕ) := by
    rw [← Int.cast_abs]
    exact_mod_cast hk
  have h1 : |x| < ((2 : ℕ) : ℚ) ^ (e + 53) := by
    rw [Nat.cast_ofNat, hx, abs_mul, abs_of_pos (two_zpow_pos e), zpow_add₀ (by norm_num),
      mul_comm]
    have : (2 : ℚ) ^ (53 : ℤ) = 2 ^ (53 : ℕ) := by norm_cast
    rw [this]
    exact mul_lt_mul_of_pos_left hk' (two_zpow_pos e)
  have h2 : Int.log 2 |x| < e + 53 := (Int.lt_zpow_iff_log_lt (by norm_num) hpos).mp h1
  unfold ulpExp
  rcases max_cases (Int.log 2 |x|) (-1022) with ⟨h, _⟩ | ⟨h, _⟩ <;> omega

theorem roundQ_zero : roundQ 0 = 0 := by
  simp [roundQ, roundEven]

/-- Binary64 values are left alone by rounding. -/
theorem roundQ_of_isDouble (x : ℚ) (h : IsDouble x) : roundQ x = x := by
  obtain ⟨k, e, hx, hk, he, _⟩ := h
  by_cases h0 : x = 0
  · rw [h0, roundQ_zero]
  · have hE := ulpExp_le_of_bits x k e hx hk he h0
    obtain ⟨n, hn⟩ : ∃ n : ℕ, e = ulpExp x + n := ⟨(e - ulpExp x).toNat, by omega⟩
    unfold roundQ
    generalize ulpExp x = E at hn ⊢
    have hq : x / 2 ^ E = ((k * 2 ^ n : ℤ) : ℚ) := by
      rw [div_eq_iff (ne_of_gt (two_zpow_pos _)), hx, hn, zpow_add₀ (by norm_num), zpow_natCast]
      push_cast
      ring
    rw [hq, roundEven_intCast, hx, hn, zpow_add₀ (by norm_num), zpow_natCast]
    push_cast
    ring

theorem roundQ_nonneg (q : ℚ) (h : 0 ≤ q) : 0 ≤ roundQ q := by
  unfold roundQ
  have h1 : (0 : ℤ) ≤ roundEven (q / 2 ^ ulpExp q) :=
    le_roundEven _ 0 (by simpa using div_nonneg h (le_of_lt (two_zpow_pos _)))
  exact mul_nonneg (by exact_mod_cast h1) (le_of_lt (two_zpow_pos _))

theorem roundQ_nonpos (q : ℚ) (h : q ≤ 0) : roundQ q ≤ 0 := by
  unfold roundQ
  have h1 : roundEven (q / 2 ^ ulpExp q) ≤ (0 : ℤ) :=
    roundEven_le _ 0 (by simpa using div_nonpos_of_nonpos_of_nonneg h (le_of_lt (two_zpow_pos _)))
  exact mul_nonpos_of_nonpos_of_nonneg (by exact_mod_cast h1) (le_of_lt (two_zpow_pos _))

/-- Rounding does not pass a binary64 value above: the result for `q ≤ d` is
at most `d`. -/
theorem roundQ_le_of_le (d q : ℚ) (hd : IsDouble d) (h0 : 0 ≤ d) (h : q ≤ d) : roundQ q ≤ d := by
  rcases le_or_lt q 0 with hq | hq
  · exact le_trans (roundQ_nonpos q hq) h0
  · obtain ⟨k, e, hx, hk, he, _⟩ := hd
    have hdpos : 0 < d := lt_of_lt_of_le hq h
    have hk' : |(k : ℚ)| < 2 ^ (53 : ℕ) := by
      rw [← Int.cast_abs]
      exact_mod_cast hk
    -- the grid of `q` is at least as fine as the one `d` lies on
    have h1 : |q| < ((2 : ℕ) : ℚ) ^ (e + 53) := by
      rw [Nat.cast_ofNat, abs_of_pos hq]
      refine lt_of_le_of_lt h ?_
      rw [hx, zpow_add₀ (by norm_num), mul_comm]
      have : (2 : ℚ) ^ (53 : ℤ) = 2 ^ (53 : ℕ) := by norm_cast
      rw [this]
      exact mul_lt_mul_of_pos_left (lt_of_le_of_lt (le_abs_self _) hk') (two_zpow_pos e)
    have h2 : Int.log 2 |q| < e + 53 :=
      (Int.lt_zpow_iff_log_lt (by norm_num) (abs_pos.mpr (ne_of_gt hq))).mp h1
    have hE : ulpExp q ≤ e := by
      unfold ulpExp
      rcases max_cases (Int.log 2 |q|) (-1022) with ⟨h, _⟩ | ⟨h, _⟩ <;> omega
    obtain ⟨n, hn⟩ : ∃ n : ℕ, e = ulpExp q + n := ⟨(e - ulpExp q).toNat, by omega⟩
    unfold roundQ
    generalize ulpExp q = E at hn ⊢
    have hdE : d = ((k * 2 ^ n : ℤ) : ℚ) * 2 ^ E := by
      rw [hx, hn, zpow_add₀ (by norm_num), zpow_natCast]
      push_cast
      ring
    have hle : q / 2 ^ E ≤ ((k * 2 ^ n : ℤ) : ℚ) := by
      rw [div_le_iff₀ (two_zpow_pos _), ← hdE]
      exact h
    have hr := roundEven_le _ _ hle
    rw [hdE]
    exact mul_le_mul_of_nonneg_right (by exact_mod_cast hr) (le_of_lt (two_zpow_pos _))

/-- What rounding returns is a binary64 value, unless it overflows. -/
theorem roundQ_isDouble (q : ℚ) (h : |roundQ q| < 2 ^ (1024 : ℕ)) : IsDouble (roundQ q) := by
  have hb := abs_lt_ulp q
  have hE := ulpExp_ge q
  have hm : |q / 2 ^ ulpExp q| < 2 ^ (53 : ℕ) := by
    rw [abs_div, abs_of_pos (two_zpow_pos _), div_lt_iff₀ (two_zpow_pos _)]
    have : (2 : ℚ) ^ (ulpExp q + 53) = 2 ^ (53 : ℕ) * 2 ^ ulpExp q := by
      rw [zpow_add₀ (by norm_num), mul_comm]
      norm_cast
    rw [← this]
    exact hb
  have hup : roundEven (q / 2 ^ ulpExp q) ≤ 2 ^ (53 : ℕ) :=
    roundEven_le _ _ (by push_cast; exact le_of_lt (lt_of_le_of_lt (le_abs_self _) hm))
  have hlo : -(2 ^ (53 : ℕ)) ≤ roundEven (q / 2 ^ ulpExp q) :=
    le_roundEven _ _ (by
      push_cast
      have := neg_abs_le (q / 2 ^ ulpExp q)
      linarith)
  have hdef : roundQ q = roundEven (q / 2 ^ ulpExp q) * 2 ^ ulpExp q := rfl
  generalize roundEven (q / 2 ^ ulpExp q) = K at hup hlo hdef
  generalize ulpExp q = E at hE hdef
  by_cases hK : |K| < 2 ^ (53 : ℕ)
  · exact ⟨K, E, hdef, hK, hE, h⟩
  · have hK2 : K = 2 ^ (53 : ℕ) ∨ K = -(2 ^ (53 : ℕ)) := by
      rw [abs_lt] at hK
      omega
    rcases hK2 with hK2 | hK2
    · refine ⟨2 ^ (52 : ℕ), E + 1, ?_, by norm_num, by omega, h⟩
      rw [hdef, hK2, zpow_add₀ (by norm_num)]
      push_cast
      ring
    · refine ⟨-(2 ^ (52 : ℕ)), E + 1, ?_, by norm_num, by omega, h⟩
      rw [hdef, hK2, zpow_add₀ (by norm_num)]
      push_cast
      ring

theorem round_of_isDouble (x : ℚ) (h : IsDouble x) : round x = Num.fin x := by
  have h1 := roundQ_of_isDouble x h
  obtain ⟨_, _, _, _, _, hb⟩ := h
  rw [abs_lt] at hb
  unfold round
  rw [h1, if_neg (by linarith), if_neg (by linarith)]

theorem isDouble_intCast (n : ℤ) (h : |n| < 2 ^ (53 : ℕ)) : IsDouble (n : ℚ) := by
  refine ⟨n, 0, by simp, h, by norm_num, ?_⟩
  have h1 : |(n : ℚ)| < 2 ^ (53 : ℕ) := by
    rw [← Int.cast_abs]
    exact_mod_cast h
  exact lt_trans h1 (by norm_num)

theorem round_intCast (n : ℤ) (h : |n| < 2 ^ (53 : ℕ)) : round (n : ℚ) = Num.fin n :=
  round_of_isDouble _ (isDouble_intCast n h)

/-- Rounding a number that is not negative gives a time. -/
theorem isTime_round (q : ℚ) (h : 0 ≤ q) : IsTime (round q) := by
  have h0 := roundQ_nonneg q h
  have hB : (0 : ℚ) < 2 ^ (1024 : ℕ) := pow_pos (by norm_num) _
  by_cases h1 : (2 : ℚ) ^ (1024 : ℕ) ≤ roundQ q
  · rw [round, if_pos h1]
    trivial
  · have h2 : ¬ roundQ q ≤ -2 ^ (1024 : ℕ) := by
      intro h2
      generalize (2 : ℚ) ^ (1024 : ℕ) = B at hB h2
      linarith
    rw [round, if_neg h1, if_neg h2]
    refine ⟨roundQ_isDouble q ?_, h0⟩
    rw [abs_of_nonneg h0]
    exact not_le.mp h1

/-! ## The effects and the render rounds -/

theorem seq_zero_le (r : Num) (h : Num.seq r (.fin 0) = true) : Num.le r (.fin 0) = true := by
  cases r <;> simp_all [Num.seq, Num.le]

theorem announceEffect_stopped (r p : Timer) (h : r.running = false) :
    announceEffect r p = (p, []) := by
  simp [announceEffect, h]

theorem announceEffect_zero (r p : Timer) (h : Num.le r.remaining (.fin 0) = true) :
    announceEffect r p = (p, []) := by
  simp [announceEffect, h]

theorem announceEffect_counting (r p : Timer) (h : r.running = true)
    (h0 : Num.le r.remaining (.fin 0) = false) :
    announceEffect r p =
      if Num.lt p.lastMinute
            (Num.floor (Num.div (Num.sub r.duration r.remaining) (.fin 60000))) = true ∧
          Num.seq (Num.mod (Num.sub r.duration r.remaining) (.fin 60000)) (.fin 0) = true then
        ({ p with lastMinute :=
            Num.floor (Num.div (Num.sub r.duration r.remaining) (.fin 60000)) }, [Cue.nextBite])
      else (p, []) := by
  have h2 : Num.seq r.remaining (.fin 0) = false := by
    cases hs : Num.seq r.remaining (.fin 0)
    · rfl
    · rw [seq_zero_le _ hs] at h0
      exact absurd h0 (by simp)
  simp only [announceEffect, h, h0, h2, Bool.true_eq_false, Bool.false_eq_true, or_self,
    false_and, if_false, List.append_nil]

/-- The cue `Timer finished` is never produced: its branch (lines 56-59) lies
behind the early return of line 48. -/
theorem announceEffect_no_finished (r p : Timer) :
    Cue.timerFinished ∉ (announceEffect r p).2 := by
  by_cases h : r.running = false
  · simp [announceEffect_stopped r p h]
  · cases h0 : Num.le r.remaining (.fin 0)
    · rw [announceEffect_counting r p (by simpa using h) h0]
      split_ifs <;> simp
    · simp [announceEffect_zero r p h0]

/-- The announcement effect changes nothing but the ref. -/
theorem announceEffect_cells (r p : Timer) :
    (announceEffect r p).1.running = p.running ∧ (announceEffect r p).1.duration = p.duration ∧
      (announceEffect r p).1.remaining = p.remaining := by
  by_cases h : r.running = false
  · simp [announceEffect_stopped r p h]
  · cases h0 : Num.le r.remaining (.fin 0)
    · rw [announceEffect_counting r p (by simpa using h) h0]
      split_ifs <;> simp
    · simp [announceEffect_zero r p h0]

theorem flush_same (n : Nat) (prev cur : Timer) (h1 : cur.running = prev.running)
    (h2 : cur.duration = prev.duration) (h3 : cur.remaining = prev.remaining) :
    flush n prev cur = (cur, []) := by
  cases n <;> simp [flush, h1, h2, h3]

/-- An update that leaves `duration` alone takes one commit, in which only the
announcement effect acts; the round after it finds nothing to do. -/
theorem flush_keep_duration (n : Nat) (prev cur : Timer) (hd : cur.duration = prev.duration)
    (hne : ¬ (cur.running = prev.running ∧ cur.remaining = prev.remaining)) :
    flush (n + 2) prev cur = announceEffect cur cur := by
  have hdep : cur.remaining ≠ prev.remaining ∨ cur.running ≠ prev.running ∨
      cur.duration ≠ prev.duration := by
    by_cases h : cur.remaining = prev.remaining
    · right; left; intro h1; exact hne ⟨h1, h⟩
    · left; exact h
  have hc : commit prev cur = announceEffect cur cur := by
    simp only [commit, hd, ne_eq, not_true_eq_false, if_false]
    rw [if_pos (by simpa [hd] using hdep)]
  have hs : ¬ (cur.running = prev.running ∧ cur.duration = prev.duration ∧
      cur.remaining = prev.remaining) := fun h => hne ⟨h.1, h.2.2⟩
  obtain ⟨c1, c2, c3⟩ := announceEffect_cells cur cur
  rw [flush, if_neg hs]
  simp only [hc, flush_same (n + 1) cur _ c1 c2 c3, List.append_nil]

/-- An update of `duration` takes two commits: the duration effect and the
announcement effect act in the first, nothing acts in the second. -/
theorem flush_new_duration (n : Nat) (prev cur : Timer) (hd : cur.duration ≠ prev.duration) :
    flush (n + 3) prev cur = announceEffect cur (durationEffect cur cur) := by
  have hc : commit prev cur = announceEffect cur (durationEffect cur cur) := by
    simp [commit, hd]
  have hs : ¬ (cur.running = prev.running ∧ cur.duration = prev.duration ∧
      cur.remaining = prev.remaining) := fun h => hd h.2.1
  obtain ⟨c1, c2, c3⟩ := announceEffect_cells cur (durationEffect cur cur)
  rw [flush, if_neg hs]
  simp only [hc]
  by_cases hsame : (announceEffect cur (durationEffect cur cur)).1.running = cur.running ∧
      (announceEffect cur (durationEffect cur cur)).1.remaining = cur.remaining
  · rw [flush_same (n + 2) cur _ hsame.1 (by rw [c2]; rfl) hsame.2, List.append_nil]
  · rw [flush_keep_duration n cur _ (by rw [c2]; rfl) hsame,
      announceEffect_stopped _ _ (by rw [c1]; rfl), List.append_nil]

/-- Closed form of the render rounds. -/
theorem flush_rounds (k : Nat) (prev cur : Timer) :
    flush (rounds + k) prev cur =
      if cur.running = prev.running ∧ cur.duration = prev.duration ∧ cur.remaining = prev.remaining then
        (cur, [])
      else if cur.duration = prev.duration then announceEffect cur cur
      else announceEffect cur (durationEffect cur cur) := by
  have e : rounds + k = k + 3 := by simp [rounds, Nat.add_comm]
  rw [e]
  split_ifs with h1 h2
  · exact flush_same _ _ _ h1.1 h1.2.1 h1.2.2
  · exact flush_keep_duration (k + 1) prev cur h2 (fun h => h1 ⟨h.1, h2, h.2⟩)
  · exact flush_new_duration k prev cur h2

/-- After `rounds` rounds no update is left: further rounds change nothing. -/
theorem flush_settled (k : Nat) (prev cur : Timer) :
    flush (rounds + k) prev cur = flush rounds prev cur := by
  rw [flush_rounds k, ← flush_rounds 0]; rfl

theorem flush_rounds_eq (prev cur : Timer) :
    flush rounds prev cur =
      if cur.running = prev.running ∧ cur.duration = prev.duration ∧ cur.remaining = prev.remaining then
        (cur, [])
      else if cur.duration = prev.duration then announceEffect cur cur
      else announceEffect cur (durationEffect cur cur) :=
  flush_rounds 0 prev cur

/-! ## The handlers -/

theorem handleStart_eq (s : Timer) :
    handleStart s =
      if s.running = true then (s, [])
      else announceEffect { s with running := true } { s with running := true } := by
  rw [handleStart, flush_rounds_eq]
  by_cases h : s.running = true
  · have e : ({ s with running := true } : Timer) = s := by cases s; simp_all
    simp [h, e]
  · simp [h]

theorem handlePause_eq (s : Timer) : handlePause s = ({ s with running := false }, []) := by
  rw [handlePause, flush_rounds_eq]
  split_ifs
  · rfl
  · exact announceEffect_stopped _ _ rfl
  · exact absurd rfl ‹_›

theorem handleReset_eq (s : Timer) :
    handleReset s =
      ({ s with running := false, remaining := s.duration, lastMinute := .fin 0 }, []) := by
  rw [handleReset, flush_rounds_eq]
  split_ifs
  · rfl
  · exact announceEffect_stopped _ _ rfl
  · exact absurd rfl ‹_›

/-- The interval callback: nothing happens when the new value is the old one
(React bails out), otherwise the announcement effect runs on the new render. -/
theorem tickCallback_eq (s : Timer) :
    tickCallback s =
      if Num.max (Num.sub s.remaining (.fin 1000)) (.fin 0) = s.remaining then (s, [])
      else announceEffect { s with remaining := Num.max (Num.sub s.remaining (.fin 1000)) (.fin 0) }
        { s with remaining := Num.max (Num.sub s.remaining (.fin 1000)) (.fin 0) } := by
  rw [tickCallback, flush_rounds_eq]
  by_cases hne : Num.max (Num.sub s.remaining (.fin 1000)) (.fin 0) = s.remaining
  · have e : ({ s with remaining := Num.max (Num.sub s.remaining (.fin 1000)) (.fin 0) } : Timer)
        = s := by
      cases s; simp_all
    simp [hne, e]
  · simp [hne]

/-- The handler of the duration input on any state: nothing happens when the
duration computed is the current one; otherwise the duration effect resets
the timer, and the announcement effect of the same commit still sees the old
running flag and the old remaining time. -/
theorem handleDurationChange_eq (v : ℚ) (s : Timer) :
    handleDurationChange v s =
      if newDuration v = s.duration then (s, [])
      else announceEffect { s with duration := newDuration v }
        (idle (newDuration v)) := by
  rw [handleDurationChange, flush_rounds_eq]
  by_cases hd : newDuration v = s.duration
  · have e : ({ s with duration := newDuration v } : Timer) = s := by
      cases s; simp_all
    simp [hd, e]
  · simp only [hd, and_false, false_and, if_false]
    rfl

theorem handleDurationChange_stopped (v : ℚ) (s : Timer) (h : s.running = false) :
    handleDurationChange v s =
      if newDuration v = s.duration then (s, []) else (idle (newDuration v), []) := by
  rw [handleDurationChange_eq]
  split_ifs
  · rfl
  · exact announceEffect_stopped _ _ h

/-! ## Arithmetic of the timer -/

theorem round_zero : round 0 = Num.fin 0 :=
  round_intCast 0 (by norm_num)

theorem sub_fin (a b : ℚ) (h : IsDouble (a - b)) : Num.sub (.fin a) (.fin b) = .fin (a - b) := by
  simp only [Num.sub]
  exact round_of_isDouble _ h

theorem mul_fin (a b : ℚ) : Num.mul (.fin a) (.fin b) = round (a * b) := rfl

theorem max_fin (a b : ℚ) : Num.max (.fin a) (.fin b) = .fin (max a b) := by
  simp only [Num.max, Num.le, decide_eq_true_eq]
  split_ifs with h
  · rw [max_eq_right h]
  · rw [max_eq_left (le_of_lt (not_le.mp h))]

/-- A difference that is not positive is clamped to zero. -/
theorem max_round_nonpos (q : ℚ) (h : q ≤ 0) : Num.max (round q) (.fin 0) = .fin 0 := by
  have h0 := roundQ_nonpos q h
  have hB : (0 : ℚ) < 2 ^ (1024 : ℕ) := pow_pos (by norm_num) _
  have h1 : ¬ (2 : ℚ) ^ (1024 : ℕ) ≤ roundQ q := by
    intro h1
    generalize (2 : ℚ) ^ (1024 : ℕ) = B at hB h1
    linarith
  rw [round, if_neg h1]
  split_ifs
  · simp [Num.max, Num.le]
  · rw [max_fin, max_eq_right h0]

/-- At full time no minute has passed, whatever the duration. -/
theorem no_minutes_at_start (D : Num) :
    Num.lt (.fin 0) (Num.floor (Num.div (Num.sub D D) (.fin 60000))) = false := by
  cases D with
  | fin d =>
    simp only [Num.sub, sub_self, round_zero, Num.div]
    rw [if_neg (by norm_num), zero_div, round_zero]
    simp [Num.floor, Num.lt]
  | pinf => simp [Num.sub, Num.div, Num.floor, Num.lt]
  | ninf => simp [Num.sub, Num.div, Num.floor, Num.lt]
  | nan => simp [Num.sub, Num.div, Num.floor, Num.lt]

/-- Whole seconds of elapsed time: the remainder by a minute. -/
theorem seq_mod_seconds (m : ℕ) :
    Num.seq (Num.mod (.fin (1000 * (m : ℚ))) (.fin 60000)) (.fin 0) = decide (m % 60 = 0) := by
  have hfl : ⌊(1000 * (m : ℚ)) / 60000⌋ = ((m / 60 : ℕ) : ℤ) := by
    have h1 : (1000 * (m : ℚ)) / 60000 = ((m : ℤ) : ℚ) / ((60 : ℕ) : ℚ) := by
      push_cast
      ring
    rw [h1, Rat.floor_intCast_div_natCast]
    norm_cast
  have hnn : (0 : ℚ) ≤ (1000 * (m : ℚ)) / 60000 := by positivity
  simp only [Num.mod, Num.seq, trunc, if_pos hnn, hfl]
  rw [if_neg (by norm_num)]
  have key : (1000 * (m : ℚ) - 60000 * (((m / 60 : ℕ) : ℤ) : ℚ) = 0) ↔ m % 60 = 0 := by
    constructor
    · intro h
      have h2 : (1000 * (m : ℤ) - 60000 * ((m / 60 : ℕ) : ℤ) : ℤ) = 0 := by
        exact_mod_cast h
      push_cast at h2
      omega
    · intro h
      have h2 : (1000 * (m : ℤ) - 60000 * ((m / 60 : ℕ) : ℤ) : ℤ) = 0 := by
        push_cast
        omega
      exact_mod_cast h2
  simp only [Num.fin.injEq, key]

/-- Whole minutes of elapsed time: the quotient is exact. -/
theorem floor_div_minutes (j : ℕ) (h : 60000 * (j : ℚ) < 2 ^ (53 : ℕ)) :
    Num.floor (Num.div (.fin (60000 * (j : ℚ))) (.fin 60000)) = .fin (j : ℚ) := by
  have h1 : (60000 * (j : ℚ)) / 60000 = ((j : ℤ) : ℚ) := by
    push_cast
    field_simp
  have hj : |(j : ℤ)| < 2 ^ (53 : ℕ) := by
    rw [abs_of_nonneg (by positivity)]
    have : (j : ℚ) < 2 ^ (53 : ℕ) := by linarith [show (0 : ℚ) ≤ (j : ℚ) by positivity]
    exact_mod_cast this
  simp only [Num.div]
  rw [if_neg (by norm_num), h1, round_intCast _ hj]
  simp [Num.floor]

/-- Below `2 ^ 53` a binary64 value stays one when whole milliseconds are
taken off it, as long as the difference is not negative. -/
theorem isDouble_sub_natCast (D : ℚ) (hD : IsDouble D) (hlt : D < 2 ^ (53 : ℕ)) (m : ℕ)
    (h0 : 0 ≤ D - m) : IsDouble (D - m) := by
  obtain ⟨k, e, hx, hk, he, _⟩ := hD
  have hm0 : (0 : ℚ) ≤ (m : ℚ) := Nat.cast_nonneg m
  have hpow : (2 : ℚ) ^ (53 : ℕ) < 2 ^ (1024 : ℕ) :=
    pow_lt_pow_right₀ (by norm_num) (by norm_num)
  have hb : |D - m| < 2 ^ (1024 : ℕ) :=
    lt_of_eq_of_lt (abs_of_nonneg h0) (lt_of_le_of_lt (sub_le_self D hm0) (lt_trans hlt hpow))
  rcases le_or_lt 0 e with hpos | hneg
  · obtain ⟨n, hn⟩ : ∃ n : ℕ, e = n := ⟨e.toNat, by omega⟩
    have hD' : D = ((k * 2 ^ n : ℤ) : ℚ) := by
      rw [hx, hn, zpow_natCast]
      push_cast
      ring
    have hc : D - m = ((k * 2 ^ n - m : ℤ) : ℚ) := by
      rw [hD']
      push_cast
      ring
    rw [hc]
    apply isDouble_intCast
    have h1 : (0 : ℚ) ≤ ((k * 2 ^ n - m : ℤ) : ℚ) := by rw [← hc]; exact h0
    have h2 : ((k * 2 ^ n - m : ℤ) : ℚ) < 2 ^ (53 : ℕ) := by rw [← hc]; linarith
    have h1' : (0 : ℤ) ≤ k * 2 ^ n - m := by exact_mod_cast h1
    have h2' : (k * 2 ^ n - m : ℤ) < 2 ^ (53 : ℕ) := by exact_mod_cast h2
    rw [abs_of_nonneg h1']
    exact h2'
  · obtain ⟨n, hn⟩ : ∃ n : ℕ, e = -(n : ℤ) := ⟨(-e).toNat, by omega⟩
    have h2n : (2 : ℚ) ^ e * 2 ^ n = 1 := by
      rw [hn, zpow_neg, zpow_natCast]
      field_simp
    have hc : D - m = ((k - m * 2 ^ n : ℤ) : ℚ) * 2 ^ e := by
      push_cast
      rw [sub_mul, ← hx, mul_assoc, mul_comm ((2 : ℚ) ^ n) _, h2n, mul_one]
    refine ⟨k - m * 2 ^ n, e, hc, ?_, he, hb⟩
    have hpe := two_zpow_pos e
    have h1 : (0 : ℚ) ≤ ((k - m * 2 ^ n : ℤ) : ℚ) := by
      by_contra hcon
      have : ((k - m * 2 ^ n : ℤ) : ℚ) * 2 ^ e < 0 := mul_neg_of_neg_of_pos (not_le.mp hcon) hpe
      linarith
    have h1' : (0 : ℤ) ≤ k - m * 2 ^ n := by exact_mod_cast h1
    have h3 : (0 : ℤ) ≤ (m : ℤ) * 2 ^ n := by positivity
    rw [abs_lt] at hk
    rw [abs_of_nonneg h1']
    omega

/-! ## Single ticks -/

theorem intervalActive_fin (s : Timer) (r : ℚ) (hr : s.running = true) (hrem : s.remaining = .fin r)
    (h0 : 0 < r) : intervalActive s = true := by
  simp [intervalActive, hr, hrem, Num.lt, h0]

/-- The tick that uses up the time: `remaining` becomes `0` and nothing is spoken. -/
theorem step_tick_last (s : Timer) (r : ℚ) (hr : s.running = true) (hrem : s.remaining = .fin r)
    (h0 : 0 < r) (h : r ≤ 1000) :
    step Cmd.tick s = ({ s with remaining := .fin 0 }, []) := by
  have hnew : Num.max (Num.sub s.remaining (.fin 1000)) (.fin 0) = .fin 0 := by
    rw [hrem]
    simp only [Num.sub]
    exact max_round_nonpos _ (by linarith)
  have hne : ¬ Num.fin 0 = s.remaining := by
    rw [hrem, Num.fin.injEq]
    exact ne_of_lt h0
  simp only [step, intervalActive_fin s r hr hrem h0, if_true]
  rw [tickCallback_eq, hnew, if_neg hne]
  exact announceEffect_zero _ _ (by simp [Num.le])

/-- No interval, no tick. -/
theorem step_tick_idle (s : Timer) (h : intervalActive s = false) :
    step Cmd.tick s = (s, []) := by
  simp [step, h]

/-- A tick that leaves time on the clock, where the arithmetic is exact: one
second less, and `Next bite` exactly when the elapsed time, `m` seconds, has
reached a whole minute not yet announced. -/
theorem step_tick_exact (D r : ℚ) (lm : Num) (m : ℕ) (h : 1000 < r)
    (hd : IsDouble (r - 1000)) (hel : D - (r - 1000) = 1000 * (m : ℚ))
    (hm : 1000 * (m : ℚ) < 2 ^ (53 : ℕ)) :
    step Cmd.tick { running := true, duration := .fin D, remaining := .fin r, lastMinute := lm } =
      if Num.lt lm (.fin ((m / 60 : ℕ) : ℚ)) = true ∧ m % 60 = 0 then
        ({ running := true, duration := .fin D, remaining := .fin (r - 1000),
           lastMinute := .fin ((m / 60 : ℕ) : ℚ) }, [Cue.nextBite])
      else
        ({ running := true, duration := .fin D, remaining := .fin (r - 1000), lastMinute := lm },
          []) := by
  have hnew : Num.max (Num.sub (.fin r) (.fin 1000)) (.fin 0) = .fin (r - 1000) := by
    rw [sub_fin _ _ hd, max_fin, max_eq_left (by linarith)]
  have hne : ¬ Num.fin (r - 1000) = Num.fin r := by
    rw [Num.fin.injEq]
    linarith
  have hel' : Num.sub (.fin D) (.fin (r - 1000)) = .fin (1000 * (m : ℚ)) := by
    have hi : IsDouble (D - (r - 1000)) := by
      rw [hel]
      have := isDouble_intCast (1000 * (m : ℤ)) (by
        rw [abs_of_nonneg (by positivity)]
        exact_mod_cast hm)
      push_cast at this
      exact this
    rw [sub_fin _ _ hi, hel]
  simp only [step]
  rw [if_pos (intervalActive_fin _ r rfl rfl (by linarith)), tickCallback_eq]
  simp only [hnew, if_neg hne]
  rw [announceEffect_counting _ _ rfl (by simp [Num.le]; linarith)]
  simp only [hel', seq_mod_seconds, decide_eq_true_eq]
  by_cases h60 : m % 60 = 0
  · obtain ⟨j, hj⟩ : ∃ j : ℕ, m = 60 * j := ⟨m / 60, by omega⟩
    have hmj : 1000 * (m : ℚ) = 60000 * (j : ℚ) := by
      rw [hj]
      push_cast
      ring
    have hj' : m / 60 = j := by omega
    rw [hmj, floor_div_minutes j (by rw [← hmj]; exact hm), hj']
  · simp [h60]

/-! ## Runs -/

theorem run_append (xs ys : List Cmd) (s : Timer) :
    run (xs ++ ys) s = ((run ys (run xs s).1).1, (run xs s).2 ++ (run ys (run xs s).1).2) := by
  induction xs generalizing s with
  | nil => simp [run]
  | cons c cs ih => simp [run, ih, List.append_assoc]

theorem run_single (c : Cmd) (s : Timer) : run [c] s = step c s := by
  simp [run]

theorem run_cons (c : Cmd) (cs : List Cmd) (s : Timer) :
    run (c :: cs) s = ((run cs (step c s).1).1, (step c s).2 ++ (run cs (step c s).1).2) := rfl

theorem run_cons_fst (c : Cmd) (cs : List Cmd) (s t : Timer) (e : List Cue)
    (h : step c s = (t, e)) : (run (c :: cs) s).1 = (run cs t).1 := by
  rw [run_cons, h]

theorem run_append_fst (xs ys : List Cmd) (s t : Timer) (e : List Cue)
    (h : run xs s = (t, e)) : (run (xs ++ ys) s).1 = (run ys t).1 := by
  rw [run_append, h]

theorem run_single_fst (c : Cmd) (s : Timer) : (run [c] s).1 = (step c s).1 := by
  rw [run_single]

theorem step_pause_eq (s : Timer) : step Cmd.pause s = ({ s with running := false }, []) := by
  simp only [step, handlePause_eq]

/-- The announcement effect stays silent when no further minute has passed. -/
theorem announceEffect_no_minute (r p : Timer) (h : r.running = true)
    (h0 : Num.le r.remaining (.fin 0) = false)
    (hlt : Num.lt p.lastMinute
      (Num.floor (Num.div (Num.sub r.duration r.remaining) (.fin 60000))) = false) :
    announceEffect r p = (p, []) := by
  rw [announceEffect_counting r p h h0]
  exact if_neg (fun hc => by rw [hlt] at hc; exact absurd hc.1 (by simp))

theorem startAndTick_succ (D : Num) (n : Nat) :
    startAndTick D (n + 1) =
      ((step Cmd.tick (startAndTick D n).1).1,
        (startAndTick D n).2 ++ (step Cmd.tick (startAndTick D n).1).2) := by
  have e : Cmd.start :: List.replicate (n + 1) Cmd.tick =
      (Cmd.start :: List.replicate n Cmd.tick) ++ [Cmd.tick] := by
    rw [List.replicate_succ', List.cons_append]
  rw [startAndTick, e, run_append, run_single]
  rfl

/-- Starting from idle speaks nothing and sets the running flag, whatever the duration. -/
theorem startAndTick_zero (D : Num) :
    startAndTick D 0 = ({ idle D with running := true }, []) := by
  simp only [startAndTick, List.replicate_zero, run_single, step]
  rw [handleStart_eq]
  simp only [idle, Bool.false_eq_true, if_false]
  cases h0 : Num.le D (.fin 0)
  · rw [announceEffect_counting _ _ rfl h0]
    simp only [no_minutes_at_start, Bool.false_eq_true, false_and, if_false]
  · exact announceEffect_zero _ _ h0

/-- While time is left, for a duration below `2 ^ 53` ms: after `n` ticks `n`
seconds are gone and one `Next bite` has been spoken for each whole minute
among them. -/
theorem startAndTick_counting (D : ℚ) (hD : IsDouble D) (hlt : D < 2 ^ (53 : ℕ)) (n : ℕ)
    (h : 1000 * (n : ℚ) < D) :
    startAndTick (.fin D) n =
      ({ running := true, duration := .fin D, remaining := .fin (D - 1000 * (n : ℚ)),
         lastMinute := .fin ((n / 60 : ℕ) : ℚ) },
        List.replicate (n / 60) Cue.nextBite) := by
  induction n with
  | zero => simp [startAndTick_zero, idle]
  | succ n ih =>
    have hn : 1000 * (n : ℚ) < D := by push_cast at h; linarith
    have hdbl : IsDouble (D - 1000 * (n : ℚ) - 1000) := by
      have := isDouble_sub_natCast D hD hlt (1000 * (n + 1)) (by push_cast at h ⊢; linarith)
      have e : D - 1000 * (n : ℚ) - 1000 = D - ((1000 * (n + 1) : ℕ) : ℚ) := by
        push_cast
        ring
      rw [e]
      exact this
    have hs := step_tick_exact D (D - 1000 * (n : ℚ)) (.fin ((n / 60 : ℕ) : ℚ)) (n + 1)
      (by push_cast at h; linarith) hdbl (by push_cast; ring) (lt_trans h hlt)
    rw [startAndTick_succ, ih hn]
    simp only [hs]
    have e1 : D - 1000 * (n : ℚ) - 1000 = D - 1000 * ((n + 1 : ℕ) : ℚ) := by
      push_cast
      ring
    by_cases hc : (n + 1) % 60 = 0
    · have c2 : (n + 1) / 60 = n / 60 + 1 := by omega
      have c1 : Num.lt (.fin ((n / 60 : ℕ) : ℚ)) (.fin (((n + 1) / 60 : ℕ) : ℚ)) = true := by
        rw [c2]
        simp [Num.lt]
      rw [if_pos ⟨c1, hc⟩, e1]
      simp only [c2, List.replicate_succ']
    · rw [if_neg (fun hh => hc hh.2), e1]
      have c2 : (n + 1) / 60 = n / 60 := by omega
      simp only [c2, List.append_nil]

/-- Once the time is used up, for a duration below `2 ^ 53` ms of which `k`
whole seconds fit strictly inside: `remaining` is `0`, the running flag is
still set, and the cues are the `Next bite` of every whole minute among the
`k` seconds. -/
theorem startAndTick_done (D : ℚ) (hD : IsDouble D) (hlt : D < 2 ^ (53 : ℕ)) (k : ℕ)
    (hk1 : 1000 * (k : ℚ) < D) (hk2 : D ≤ 1000 * ((k : ℚ) + 1)) (j : ℕ) :
    startAndTick (.fin D) (k + 1 + j) =
      ({ running := true, duration := .fin D, remaining := .fin 0,
         lastMinute := .fin ((k / 60 : ℕ) : ℚ) },
        List.replicate (k / 60) Cue.nextBite) := by
  induction j with
  | zero =>
    rw [Nat.add_zero, startAndTick_succ, startAndTick_counting D hD hlt k hk1]
    have hs := step_tick_last
      { running := true, duration := .fin D, remaining := .fin (D - 1000 * (k : ℚ)),
        lastMinute := .fin ((k / 60 : ℕ) : ℚ) }
      (D - 1000 * (k : ℚ)) rfl rfl (by linarith) (by linarith)
    simp only [hs, List.append_nil]
  | succ j ih =>
    rw [← Nat.add_assoc, startAndTick_succ, ih]
    have hs := step_tick_idle
      { running := true, duration := .fin D, remaining := .fin 0,
        lastMinute := .fin ((k / 60 : ℕ) : ℚ) }
      (by simp [intervalActive, Num.lt])
    simp only [hs, List.append_nil]

/-- The whole seconds that fit strictly inside a positive duration. -/
theorem seconds_inside (D : ℚ) (h0 : 0 < D) :
    ∃ k : ℕ, 1000 * (k : ℚ) < D ∧ D ≤ 1000 * ((k : ℚ) + 1) ∧
      ((k / 60 : ℕ) : ℤ) = ⌈D / 60000⌉ - 1 := by
  have hc1 : D / 1000 ≤ (⌈D / 1000⌉ : ℚ) := Int.le_ceil _
  have hc2 : (⌈D / 1000⌉ : ℚ) < D / 1000 + 1 := Int.ceil_lt_add_one _
  have hJ1 : D / 60000 ≤ (⌈D / 60000⌉ : ℚ) := Int.le_ceil _
  have hJ2 : (⌈D / 60000⌉ : ℚ) < D / 60000 + 1 := Int.ceil_lt_add_one _
  have hcpos : 0 < ⌈D / 1000⌉ := Int.ceil_pos.mpr (by positivity)
  obtain ⟨k, hk⟩ : ∃ k : ℕ, ⌈D / 1000⌉ = (k : ℤ) + 1 := ⟨(⌈D / 1000⌉ - 1).toNat, by omega⟩
  have hkq : (⌈D / 1000⌉ : ℚ) = (k : ℚ) + 1 := by
    rw [hk]
    push_cast
    ring
  rw [hkq] at hc1 hc2
  refine ⟨k, by linarith, by linarith, ?_⟩
  -- `60 * (J - 1) ≤ k < 60 * J` for `J` the minutes rounded up
  have h1 : ((60 * (⌈D / 60000⌉ - 1) : ℤ) : ℚ) < (k : ℚ) + 1 := by
    push_cast
    linarith
  have h2 : ((k : ℤ) : ℚ) < ((60 * ⌈D / 60000⌉ : ℤ) : ℚ) := by
    push_cast
    linarith
  have h1' : 60 * (⌈D / 60000⌉ - 1) < (k : ℤ) + 1 := by exact_mod_cast h1
  have h2' : (k : ℤ) < 60 * ⌈D / 60000⌉ := by exact_mod_cast h2
  push_cast
  omega

/-! ## Reachable states -/

theorem round_cases (q : ℚ) :
    round q = .pinf ∨ round q = .ninf ∨ (round q = .fin (roundQ q) ∧ IsDouble (roundQ q)) := by
  by_cases h1 : (2 : ℚ) ^ (1024 : ℕ) ≤ roundQ q
  · left
    rw [round, if_pos h1]
  · by_cases h2 : roundQ q ≤ -2 ^ (1024 : ℕ)
    · right; left
      rw [round, if_neg h1, if_pos h2]
    · right; right
      refine ⟨by rw [round, if_neg h1, if_neg h2], roundQ_isDouble q ?_⟩
      rw [abs_lt]
      exact ⟨not_le.mp h2, not_le.mp h1⟩

theorem isDouble_zero : IsDouble 0 := by
  have := isDouble_intCast 0 (by norm_num)
  simpa using this

theorem isDouble_one : IsDouble 1 := by
  have := isDouble_intCast 1 (by norm_num)
  simpa using this

theorem lt_irrefl_num (a : Num) : Num.lt a a = false := by
  cases a <;> simp [Num.lt]

theorem le_refl_time (a : Num) (h : IsTime a) : Num.le a a = true := by
  cases a <;> simp_all [Num.le, IsTime]

theorem zero_le_time (a : Num) (h : IsTime a) : Num.le (.fin 0) a = true := by
  cases a <;> simp_all [Num.le, IsTime]

/-- The duration the handler computes is a time. -/
theorem isTime_newDuration (v : ℚ) : IsTime (newDuration v) := by
  have hmax : ∃ x : ℚ, (Num.max (.fin 1) (round v) = .fin x ∧ 0 ≤ x) ∨
      Num.max (.fin 1) (round v) = .pinf := by
    rcases round_cases v with h | h | ⟨h, _⟩
    · exact ⟨0, Or.inr (by rw [h]; simp [Num.max, Num.le])⟩
    · exact ⟨1, Or.inl ⟨by rw [h]; simp [Num.max, Num.le], by norm_num⟩⟩
    · exact ⟨max 1 (roundQ v), Or.inl ⟨by rw [h, max_fin], le_trans (by norm_num) (le_max_left _ _)⟩⟩
  have hmul : ∀ (a : Num) (c : ℚ), 0 < c →
      ((∃ x : ℚ, a = .fin x ∧ 0 ≤ x) ∨ a = .pinf) →
      IsTime (Num.mul a (.fin c)) ∧
        ((∃ x : ℚ, Num.mul a (.fin c) = .fin x ∧ 0 ≤ x) ∨ Num.mul a (.fin c) = .pinf) := by
    intro a c hc ha
    rcases ha with ⟨x, rfl, hx⟩ | rfl
    · have ht := isTime_round (x * c) (mul_nonneg hx (le_of_lt hc))
      refine ⟨ht, ?_⟩
      simp only [Num.mul] at ht ⊢
      generalize round (x * c) = y at ht
      cases y with
      | fin z => exact Or.inl ⟨z, rfl, ht.2⟩
      | pinf => exact Or.inr rfl
      | ninf => exact absurd ht (by simp [IsTime])
      | nan => exact absurd ht (by simp [IsTime])
    · have : Num.mul .pinf (.fin c) = .pinf := by
        simp [Num.mul, Num.sgn, hc]
      rw [this]
      exact ⟨trivial, Or.inr rfl⟩
  obtain ⟨x, hx⟩ := hmax
  have h1 := hmul (Num.max (.fin 1) (round v)) 60 (by norm_num)
    (by rcases hx with h | h
        · exact Or.inl ⟨x, h⟩
        · exact Or.inr h)
  exact (hmul _ 1000 (by norm_num) h1.2).1

/-- After a tick the remaining time is again a time, and not more than before. -/
theorem tick_remaining (r : ℚ) (hd : IsDouble r) (h0 : 0 ≤ r) :
    ∃ y : ℚ, Num.max (Num.sub (.fin r) (.fin 1000)) (.fin 0) = .fin y ∧ IsDouble y ∧ 0 ≤ y ∧
      y ≤ r := by
  have hle := roundQ_le_of_le r (r - 1000) hd h0 (by linarith)
  obtain ⟨_, _, _, _, _, hb⟩ := id hd
  rw [abs_lt] at hb
  simp only [Num.sub]
  rcases round_cases (r - 1000) with h | h | ⟨h, hdy⟩
  · exfalso
    rw [round] at h
    split_ifs at h with h1
    exact absurd (le_trans h1 hle) (not_le.mpr hb.2)
  · exact ⟨0, by rw [h]; simp [Num.max, Num.le], isDouble_zero, le_refl _, h0⟩
  · rw [h, max_fin]
    rcases le_total (roundQ (r - 1000)) 0 with hn | hp
    · rw [max_eq_right hn]
      exact ⟨0, rfl, isDouble_zero, le_refl _, h0⟩
    · rw [max_eq_left hp]
      exact ⟨_, rfl, hdy, hp, hle⟩

/-- When the announcement effect has run on a render of a running timer, it
has nothing left to say. -/
theorem settled_announce (c : Timer) (hr : c.running = true) : Settled (announceEffect c c).1 := by
  cases h0 : Num.le c.remaining (.fin 0)
  · rw [announceEffect_counting c c hr h0]
    split_ifs with hc
    · intro h
      simp only [lt_irrefl_num] at h
      exact absurd h.2.1 (by simp)
    · intro h
      exact hc h.2
  · rw [announceEffect_zero c c h0]
    intro h
    rw [h0] at h
    exact absurd h.1 (by simp)

/-- In a settled state the start button only sets the running flag. -/
theorem handleStart_settled (s : Timer) (h : Settled s) :
    handleStart s = ({ s with running := true }, []) := by
  rw [handleStart_eq]
  by_cases hr : s.running = true
  · have e : ({ s with running := true } : Timer) = s := by cases s; simp_all
    rw [if_pos hr, e]
  · rw [if_neg hr]
    cases h0 : Num.le s.remaining (.fin 0)
    · have e := announceEffect_counting { s with running := true } { s with running := true }
        rfl h0
      rw [e]
      exact if_neg (fun hc => h ⟨h0, hc⟩)
    · exact announceEffect_zero { s with running := true } { s with running := true } h0

theorem settled_idle (D : Num) : Settled (idle D) := by
  intro h
  have := no_minutes_at_start D
  simp only [idle] at h
  rw [this] at h
  exact absurd h.2.1 (by simp)

theorem le_trans_time (y r : ℚ) (d : Num) (hyr : y ≤ r) (h : Num.le (.fin r) d = true) :
    Num.le (.fin y) d = true := by
  cases d <;> simp_all [Num.le]
  linarith

theorem step_wellFormed (c : Cmd) (s : Timer) (h : WellFormed s) : WellFormed (step c s).1 := by
  obtain ⟨hd, hrem, hle, hset⟩ := h
  cases c with
  | start =>
    simp only [step, handleStart_settled s hset]
    exact ⟨hd, hrem, hle, hset⟩
  | pause =>
    simp only [step, handlePause_eq]
    exact ⟨hd, hrem, hle, hset⟩
  | reset =>
    simp only [step, handleReset_eq]
    exact ⟨hd, hd, le_refl_time _ hd, settled_idle s.duration⟩
  | setDuration v =>
    simp only [step]
    split_ifs with hr
    · exact ⟨hd, hrem, hle, hset⟩
    · rw [handleDurationChange_stopped v s (by simpa using hr)]
      split_ifs
      · exact ⟨hd, hrem, hle, hset⟩
      · exact ⟨isTime_newDuration v, isTime_newDuration v,
          le_refl_time _ (isTime_newDuration v), settled_idle _⟩
  | tick =>
    simp only [step]
    split_ifs with ha
    · rw [tickCallback_eq]
      split_ifs with hsame
      · exact ⟨hd, hrem, hle, hset⟩
      · simp only [intervalActive, Bool.and_eq_true] at ha
        obtain ⟨c1, c2, c3⟩ := announceEffect_cells
          { s with remaining := Num.max (Num.sub s.remaining (.fin 1000)) (.fin 0) }
          { s with remaining := Num.max (Num.sub s.remaining (.fin 1000)) (.fin 0) }
        have hs := settled_announce
          { s with remaining := Num.max (Num.sub s.remaining (.fin 1000)) (.fin 0) } ha.1
        refine ⟨by rw [c2]; exact hd, ?_, ?_, hs⟩
        · rw [c3]
          simp only
          cases hr : s.remaining with
          | fin r =>
            rw [hr] at hrem
            obtain ⟨y, hy, hyd, hy0, _⟩ := tick_remaining r hrem.1 hrem.2
            rw [hy]
            exact ⟨hyd, hy0⟩
          | pinf => simp [Num.sub, Num.max, Num.le, IsTime]
          | ninf => rw [hr] at hrem; exact absurd hrem (by simp [IsTime])
          | nan => rw [hr] at hrem; exact absurd hrem (by simp [IsTime])
        · rw [c3, c2]
          simp only
          cases hr : s.remaining with
          | fin r =>
            rw [hr] at hrem hle
            obtain ⟨y, hy, _, _, hyr⟩ := tick_remaining r hrem.1 hrem.2
            rw [hy]
            exact le_trans_time y r _ hyr hle
          | pinf =>
            rw [hr] at hle
            simpa [Num.sub, Num.max, Num.le] using hle
          | ninf => rw [hr] at hrem; exact absurd hrem (by simp [IsTime])
          | nan => rw [hr] at hrem; exact absurd hrem (by simp [IsTime])
    · exact ⟨hd, hrem, hle, hset⟩

theorem run_wellFormed (cmds : List Cmd) (s : Timer) (h : WellFormed s) :
    WellFormed (run cmds s).1 := by
  induction cmds generalizing s with
  | nil => exact h
  | cons c cs ih => exact ih _ (step_wellFormed c s h)

theorem isTime_initial_duration : IsTime (.fin 300000) := by
  have := isDouble_intCast 300000 (by norm_num)
  exact ⟨by simpa using this, by norm_num⟩

theorem initial_wellFormed : WellFormed initial :=
  ⟨isTime_initial_duration, isTime_initial_duration, by simp [initial, Num.le], settled_idle _⟩

theorem reachable_wellFormed (s : Timer) (h : Reachable s) : WellFormed s := by
  obtain ⟨cmds, rfl⟩ := h
  exact run_wellFormed cmds initial initial_wellFormed

/-! ## Rounding at work -/

/-- Evaluation of `ulpExp` from the binade. -/
theorem ulpExp_eq (q : ℚ) (e : ℤ) (he : -1074 ≤ e) (h0 : 0 < q) (h1 : (2 : ℚ) ^ (e + 52) ≤ q)
    (h2 : q < 2 ^ (e + 53)) : ulpExp q = e := by
  have ha : |q| = q := abs_of_pos h0
  have hl1 : e + 52 ≤ Int.log 2 |q| := by
    rw [ha]
    exact (Int.zpow_le_iff_le_log (by norm_num) h0).mp (by rw [Nat.cast_ofNat]; exact h1)
  have hl2 : Int.log 2 |q| < e + 53 := by
    rw [ha]
    exact (Int.lt_zpow_iff_log_lt (by norm_num) h0).mp (by rw [Nat.cast_ofNat]; exact h2)
  unfold ulpExp
  rw [max_eq_left (by omega)]
  omega

theorem round_eq_fin (q y : ℚ) (hq : roundQ q = y) (hb : |y| < 2 ^ (1024 : ℕ)) :
    round q = .fin y := by
  rw [abs_lt] at hb
  rw [round, hq, if_neg (not_le.mpr hb.2), if_neg (not_le.mpr hb.1)]

theorem small_lt_huge (y : ℚ) (h : |y| < 2 ^ (80 : ℕ)) : |y| < 2 ^ (1024 : ℕ) :=
  lt_trans h (pow_lt_pow_right₀ (by norm_num) (by norm_num))

/-- At `1.2e17` the values are 16 apart: taking a second off ends on a tie, which
goes to the even neighbour. -/
theorem round_second_off_big :
    round (120000000000000000 - 1000) = Num.fin 119999999999999008 := by
  have hE : ulpExp (120000000000000000 - 1000 : ℚ) = 4 :=
    ulpExp_eq _ 4 (by norm_num) (by norm_num) (by norm_num) (by norm_num)
  have hfl : ⌊(120000000000000000 - 1000 : ℚ) / 2 ^ (4 : ℤ)⌋ = 7499999999999937 := by
    rw [Int.floor_eq_iff]
    norm_num
  have hre : roundEven ((120000000000000000 - 1000 : ℚ) / 2 ^ (4 : ℤ)) = 7499999999999938 := by
    unfold roundEven
    rw [hfl]
    norm_num
  have hq : roundQ (120000000000000000 - 1000 : ℚ) = 119999999999999008 := by
    unfold roundQ
    rw [hE, hre]
    norm_num
  exact round_eq_fin _ _ hq (small_lt_huge _ (by norm_num))

/-- At `5.4e20` the values are 65536 apart: taking a second off changes nothing. -/
theorem round_second_off_huge :
    round (540000000000000000000 - 1000) = Num.fin 540000000000000000000 := by
  have hE : ulpExp (540000000000000000000 - 1000 : ℚ) = 16 :=
    ulpExp_eq _ 16 (by norm_num) (by norm_num) (by norm_num) (by norm_num)
  have hfl : ⌊(540000000000000000000 - 1000 : ℚ) / 2 ^ (16 : ℤ)⌋ = 8239746093749999 := by
    rw [Int.floor_eq_iff]
    norm_num
  have hre : roundEven ((540000000000000000000 - 1000 : ℚ) / 2 ^ (16 : ℤ)) = 8239746093750000 := by
    unfold roundEven
    rw [hfl]
    norm_num
  have hq : roundQ (540000000000000000000 - 1000 : ℚ) = 540000000000000000000 := by
    unfold roundQ
    rw [hE, hre]
    norm_num
  exact round_eq_fin _ _ hq (small_lt_huge _ (by norm_num))

theorem isDouble_natCast (n : ℕ) (h : n < 2 ^ (53 : ℕ)) : IsDouble (n : ℚ) := by
  have := isDouble_intCast (n : ℤ) (by
    rw [abs_of_nonneg (Int.natCast_nonneg n)]
    exact_mod_cast h)
  exact_mod_cast this

/-- Whole minutes typed into the input, where the products are exact. -/
theorem newDuration_whole (n : ℕ) (h1 : 1 ≤ n) (h2 : n * 60000 < 2 ^ (53 : ℕ)) :
    newDuration (n : ℚ) = .fin ((n * 60000 : ℕ) : ℚ) := by
  have hn : n < 2 ^ (53 : ℕ) := by omega
  have h60 : n * 60 < 2 ^ (53 : ℕ) := by omega
  have hmax : max (1 : ℚ) (n : ℚ) = n := max_eq_right (by exact_mod_cast h1)
  have e1 : round ((n : ℚ) * 60) = .fin ((n * 60 : ℕ) : ℚ) := by
    have := round_of_isDouble _ (isDouble_natCast (n * 60) h60)
    push_cast at this ⊢
    exact this
  have e2 : round (((n * 60 : ℕ) : ℚ) * 1000) = .fin ((n * 60000 : ℕ) : ℚ) := by
    have := round_of_isDouble _ (isDouble_natCast (n * 60000) h2)
    have e : ((n * 60 : ℕ) : ℚ) * 1000 = ((n * 60000 : ℕ) : ℚ) := by
      push_cast
      ring
    rw [e]
    exact this
  rw [newDuration, round_of_isDouble _ (isDouble_natCast n hn), max_fin, hmax]
  simp only [Num.mul]
  rw [e1]
  simp only [Num.mul]
  rw [e2]

/-- No step ever speaks `Timer finished`. -/
theorem step_no_finished (c : Cmd) (s : Timer) : Cue.timerFinished ∉ (step c s).2 := by
  cases c with
  | start =>
    simp only [step, handleStart_eq]
    split_ifs
    · simp
    · exact announceEffect_no_finished _ _
  | pause => simp [step, handlePause_eq]
  | reset => simp [step, handleReset_eq]
  | setDuration v =>
    simp only [step]
    split_ifs with h
    · simp
    · rw [handleDurationChange_stopped v s (by simpa using h)]
      split_ifs <;> simp
  | tick =>
    simp only [step]
    split_ifs with h
    · rw [tickCallback_eq]
      split_ifs
      · simp
      · exact announceEffect_no_finished _ _
    · simp

/-- No run ever speaks `Timer finished`. -/
theorem run_no_finished (cmds : List Cmd) (s : Timer) : Cue.timerFinished ∉ (run cmds s).2 := by
  induction cmds generalizing s with
  | nil => simp [run]
  | cons c cs ih =>
    simp only [run, List.mem_append, not_or]
    exact ⟨step_no_finished c s, ih _⟩

/-- The default run: start and 300 ticks. -/
theorem startAndTick_default :
    startAndTick (.fin 300000) 300 =
      ({ running := true, duration := .fin 300000, remaining := .fin 0, lastMinute := .fin 4 },
        List.replicate 4 Cue.nextBite) := by
  have hD : IsDouble (300000 : ℚ) := by simpa using isDouble_natCast 300000 (by norm_num)
  have h := startAndTick_done 300000 hD (by norm_num) 299 (by norm_num) (by norm_num) 0
  have e : startAndTick (.fin 300000) 300 = _ := h
  rw [e]
  norm_num

/-- The one-minute run: start and 60 ticks. -/
theorem startAndTick_one_minute :
    startAndTick (.fin 60000) 60 =
      ({ running := true, duration := .fin 60000, remaining := .fin 0, lastMinute := .fin 0 },
        []) := by
  have hD : IsDouble (60000 : ℚ) := by simpa using isDouble_natCast 60000 (by norm_num)
  have h := startAndTick_done 60000 hD (by norm_num) 59 (by norm_num) (by norm_num) 0
  have e : startAndTick (.fin 60000) 60 = _ := h
  rw [e]
  norm_num

/-- A tick that computes the value already there changes nothing. -/
theorem step_tick_same (s : Timer)
    (h : Num.max (Num.sub s.remaining (.fin 1000)) (.fin 0) = s.remaining) :
    step Cmd.tick s = (s, []) := by
  simp only [step]
  split_ifs
  · rw [tickCallback_eq, if_pos h]
  · rfl

/-- With `5.4e20` ms on the clock a tick changes nothing, so the time never runs out. -/
theorem startAndTick_huge (n : ℕ) :
    startAndTick (.fin 540000000000000000000) n =
      ({ running := true, duration := .fin 540000000000000000000,
         remaining := .fin 540000000000000000000, lastMinute := .fin 0 }, []) := by
  induction n with
  | zero => simp [startAndTick_zero, idle]
  | succ n ih =>
    have hs := step_tick_same
      { running := true, duration := .fin 540000000000000000000,
        remaining := .fin 540000000000000000000, lastMinute := .fin 0 }
      (by simp only [Num.sub, round_second_off_huge, max_fin]; norm_num)
    rw [startAndTick_succ, ih]
    simp only [hs, List.append_nil]

/-! ## The claims -/

/-- C1, the code at a complete run of the default five minutes: after start and
300 ticks the time is used up, yet `Timer finished` has not been spoken and the
running flag is still set. -/
theorem finished_cue_not_spoken :
    (startAndTick (.fin 300000) 300).1.remaining = .fin 0 ∧
      (startAndTick (.fin 300000) 300).1.running = true ∧
      (startAndTick (.fin 300000) 300).2.count Cue.timerFinished = 0 := by
  rw [startAndTick_default]
  refine ⟨rfl, rfl, ?_⟩
  simp [List.count_replicate]

/-- C2 as stated fails for one minute: the run is complete after 60 ticks and
not before, and it has spoken no `Next bite`, not `floor(60000/60000) = 1`.
It fails for `5.4e20` ms too: there the run never reaches `remaining = 0`. -/
theorem minutes_one_minute_run :
    (startAndTick (.fin 60000) 59).1.remaining ≠ .fin 0 ∧
      (startAndTick (.fin 60000) 60).1.remaining = .fin 0 ∧
      (startAndTick (.fin 60000) 60).2.count Cue.nextBite ≠ ⌊(60000 : ℚ) / 60000⌋.toNat ∧
      ∀ n, (startAndTick (.fin 540000000000000000000) n).1.remaining ≠ .fin 0 := by
  have hD : IsDouble (60000 : ℚ) := by simpa using isDouble_natCast 60000 (by norm_num)
  rw [startAndTick_one_minute, startAndTick_counting 60000 hD (by norm_num) 59 (by norm_num)]
  refine ⟨by norm_num, rfl, by norm_num, fun n => ?_⟩
  rw [startAndTick_huge]
  norm_num

/-- C2 amended: for every duration `D` with `0 < D < 2 ^ 53` (a binary64
value) the run from idle reaches `remaining = 0`, and when it has, exactly
`ceil(D/60000) - 1` cues `Next bite` have been spoken, one for each whole
minute that ended while time was left (`lastMinute` is that number):
`floor(D/60000)` when `D` is no whole number of minutes, one less when it is. -/
theorem minutes_of_complete_run (D : ℚ) (hD : IsDouble D) (h0 : 0 < D)
    (hlt : D < 2 ^ (53 : ℕ)) :
    (∃ n, (startAndTick (.fin D) n).1.remaining = .fin 0) ∧
      ∀ n, (startAndTick (.fin D) n).1.remaining = .fin 0 →
        (startAndTick (.fin D) n).2.count Cue.nextBite = (⌈D / 60000⌉ - 1).toNat ∧
        (startAndTick (.fin D) n).1.lastMinute = .fin ((⌈D / 60000⌉ - 1 : ℤ) : ℚ) ∧
        ⌈D / 60000⌉ - 1 =
          (if ((⌊D / 60000⌋ : ℤ) : ℚ) = D / 60000 then ⌊D / 60000⌋ - 1 else ⌊D / 60000⌋) := by
  obtain ⟨k, hk1, hk2, hk3⟩ := seconds_inside D h0
  constructor
  · refine ⟨k + 1 + 0, ?_⟩
    rw [startAndTick_done D hD hlt k hk1 hk2 0]
  · intro n hn
    have hnk : k + 1 ≤ n := by
      by_contra hcon
      have hle : (n : ℚ) ≤ (k : ℚ) := by
        have : n ≤ k := by omega
        exact_mod_cast this
      have hlt' : 1000 * (n : ℚ) < D := by linarith
      rw [startAndTick_counting D hD hlt n hlt'] at hn
      simp only [Num.fin.injEq] at hn
      linarith
    obtain ⟨j, rfl⟩ : ∃ j, n = k + 1 + j := ⟨n - (k + 1), by omega⟩
    rw [startAndTick_done D hD hlt k hk1 hk2 j]
    refine ⟨?_, ?_, ?_⟩
    · simp only [List.count_replicate, beq_self_eq_true, if_true]
      omega
    · simp only [Num.fin.injEq]
      rw [← hk3]
      push_cast
      rfl
    · have hf1 : ((⌊D / 60000⌋ : ℤ) : ℚ) ≤ D / 60000 := Int.floor_le _
      have hf2 : D / 60000 < ((⌊D / 60000⌋ : ℤ) : ℚ) + 1 := Int.lt_floor_add_one _
      split_ifs with hint
      · have : ⌈D / 60000⌉ = ⌊D / 60000⌋ := by
          rw [← hint, Int.ceil_intCast, Int.floor_intCast]
        omega
      · have : ⌈D / 60000⌉ = ⌊D / 60000⌋ + 1 := by
          rw [Int.ceil_eq_iff]
          push_cast
          constructor
          · have := lt_of_le_of_ne hf1 hint
            linarith
          · linarith
        omega

theorem minutes_of_complete_run_witness :
    ∃ n, (startAndTick (.fin (120001 / 2)) n).1.remaining = .fin 0 :=
  (minutes_of_complete_run (120001 / 2)
    ⟨120001, -1, by norm_num, by norm_num, by norm_num,
      small_lt_huge _ (by rw [abs_of_pos (by norm_num)]; norm_num)⟩
    (by norm_num) (by norm_num)).1

/-- C3: from every state, reset gives `remaining = duration`, `lastMinute = 0`
and `running = false`, leaves `duration` as it was and speaks nothing. -/
theorem reset_restores (s : Timer) :
    step Cmd.reset s =
      ({ running := false, duration := s.duration, remaining := s.duration,
         lastMinute := .fin 0 }, []) := by
  simp only [step, handleReset_eq]

/-- C4: after any sequence of commands from the state at mount, whatever
numbers were typed, `0 <= remaining` and `remaining <= duration` hold. -/
theorem remaining_bounds (cmds : List Cmd) :
    Num.le (.fin 0) (run cmds initial).1.remaining = true ∧
      Num.le (run cmds initial).1.remaining (run cmds initial).1.duration = true := by
  have h := run_wellFormed cmds initial initial_wellFormed
  exact ⟨zero_le_time _ h.2.1, h.2.2.1⟩

theorem initial_eq_idle : initial = idle (.fin 300000) := rfl

/-- A timer paused one second into the default run is reachable. -/
theorem reachable_paused_midrun :
    Reachable { running := false, duration := .fin 300000, remaining := .fin 299000,
                lastMinute := .fin 0 } := by
  refine ⟨(Cmd.start :: List.replicate 1 Cmd.tick) ++ [Cmd.pause], ?_⟩
  have hD : IsDouble (300000 : ℚ) := by simpa using isDouble_natCast 300000 (by norm_num)
  have h := startAndTick_counting 300000 hD (by norm_num) 1 (by norm_num)
  rw [startAndTick, ← initial_eq_idle] at h
  rw [run_append, h, run_single]
  simp only [step, handlePause_eq]
  norm_num

/-- A timer 100 seconds into the default run is reachable. -/
theorem reachable_running_midrun :
    Reachable { running := true, duration := .fin 300000, remaining := .fin 200000,
                lastMinute := .fin 1 } := by
  refine ⟨Cmd.start :: List.replicate 100 Cmd.tick, ?_⟩
  have hD : IsDouble (300000 : ℚ) := by simpa using isDouble_natCast 300000 (by norm_num)
  have h := startAndTick_counting 300000 hD (by norm_num) 100 (by norm_num)
  rw [startAndTick, ← initial_eq_idle] at h
  rw [h]
  norm_num

theorem newDuration_one : newDuration 1 = .fin 60000 := by
  have h := newDuration_whole 1 (le_refl _) (by norm_num)
  norm_num at h
  exact h

/-- The state after a one-minute run has been paused is reachable. -/
theorem reachable_finished_paused :
    Reachable { running := false, duration := .fin 60000, remaining := .fin 0,
                lastMinute := .fin 0 } := by
  refine ⟨Cmd.setDuration 1 :: ((Cmd.start :: List.replicate 60 Cmd.tick) ++ [Cmd.pause]), ?_⟩
  have e1 : step (Cmd.setDuration 1) initial = (idle (.fin 60000), []) := by
    simp only [step, initial, Bool.false_eq_true, if_false]
    rw [handleDurationChange_stopped 1 _ rfl, newDuration_one]
    exact if_neg (by rw [Num.fin.injEq]; norm_num)
  have e2 := startAndTick_one_minute
  rw [startAndTick] at e2
  rw [run_cons_fst _ _ _ _ _ e1, run_append_fst _ _ _ _ _ e2, run_single_fst, step_pause_eq]

/-- C5: pause changes only the running flag and speaks nothing, and pause
twice is pause once, in every state; in every state reachable from the state
at mount start changes only the running flag and speaks nothing, so that pause
followed by start leaves `remaining`, `duration` and `lastMinute` as they were. -/
theorem pause_start_frame :
    (∀ s : Timer, step Cmd.pause s = ({ s with running := false }, [])) ∧
      (∀ s : Timer, run [Cmd.pause, Cmd.pause] s = run [Cmd.pause] s) ∧
      (∀ s : Timer, Reachable s → step Cmd.start s = ({ s with running := true }, [])) ∧
      (∀ s : Timer, Reachable s →
        run [Cmd.pause, Cmd.start] s = ({ s with running := true }, [])) := by
  refine ⟨fun s => ?_, fun s => ?_, fun s h => ?_, fun s h => ?_⟩
  · simp only [step, handlePause_eq]
  · simp only [run, step, handlePause_eq, List.append_nil]
  · simp only [step, handleStart_settled s (reachable_wellFormed s h).2.2.2]
  · have hp : Settled { s with running := false } := (reachable_wellFormed s h).2.2.2
    simp only [run, step, handlePause_eq, handleStart_settled _ hp, List.append_nil]

theorem pause_start_frame_witness :
    Reachable { running := false, duration := .fin 300000, remaining := .fin 299000,
                lastMinute := .fin 0 } ∧
      run [Cmd.pause, Cmd.start]
          { running := false, duration := .fin 300000, remaining := .fin 299000,
            lastMinute := .fin 0 } =
        ({ running := true, duration := .fin 300000, remaining := .fin 299000,
           lastMinute := .fin 0 }, []) :=
  ⟨reachable_paused_midrun, pause_start_frame.2.2.2 _ reachable_paused_midrun⟩

/-- C6, the code at the reachable state left by pausing a finished one-minute
run: `remaining` is `0`, and start sets the running flag, which then stays set. -/
theorem start_at_zero_sets_running :
    Reachable { running := false, duration := .fin 60000, remaining := .fin 0,
                lastMinute := .fin 0 } ∧
      step Cmd.start { running := false, duration := .fin 60000, remaining := .fin 0,
                       lastMinute := .fin 0 } =
        ({ running := true, duration := .fin 60000, remaining := .fin 0,
           lastMinute := .fin 0 }, []) := by
  refine ⟨reachable_finished_paused, ?_⟩
  simp only [step, handleStart_eq, Bool.false_eq_true, if_false]
  exact announceEffect_zero _ _ (by simp only [Num.le, decide_eq_true_eq]; exact le_refl _)

/-- No minute has passed when the elapsed time is not positive. -/
theorem no_minute_of_nonpos (x : ℚ) (hx : x ≤ 0) :
    Num.lt (.fin 0) (Num.floor (Num.div (.fin x) (.fin 60000))) = false := by
  simp only [Num.div]
  rw [if_neg (by norm_num)]
  have hn := roundQ_nonpos (x / 60000) (div_nonpos_of_nonpos_of_nonneg hx (by norm_num))
  rcases round_cases (x / 60000) with hc | hc | ⟨hc, _⟩
  · rw [round] at hc
    split_ifs at hc with h2
    have hB : (0 : ℚ) < 2 ^ (1024 : ℕ) := pow_pos (by norm_num) _
    generalize (2 : ℚ) ^ (1024 : ℕ) = B at hB h2
    linarith
  · rw [hc]
    simp [Num.floor, Num.lt]
  · rw [hc]
    simp only [Num.floor, Num.lt, decide_eq_false_iff_not, not_lt]
    have h3 : (⌊roundQ (x / 60000)⌋ : ℚ) ≤ roundQ (x / 60000) := Int.floor_le _
    linarith

/-- C7 as stated fails on the handler of lines 70-73: called on a running
timer, 100 seconds into the default run, it stops and resets it. -/
theorem handleDurationChange_while_running :
    Reachable { running := true, duration := .fin 300000, remaining := .fin 200000,
                lastMinute := .fin 1 } ∧
      handleDurationChange 1 { running := true, duration := .fin 300000,
                               remaining := .fin 200000, lastMinute := .fin 1 } =
        (idle (.fin 60000), []) := by
  refine ⟨reachable_running_midrun, ?_⟩
  have hsub : Num.sub (.fin 60000) (.fin 200000) = .fin (-140000) := by
    have hd : IsDouble ((60000 : ℚ) - 200000) := by
      have := isDouble_intCast (-140000) (by norm_num)
      norm_num at this ⊢
      exact this
    rw [sub_fin _ _ hd]
    norm_num
  rw [handleDurationChange_eq, newDuration_one, if_neg (by rw [Num.fin.injEq]; norm_num)]
  refine announceEffect_no_minute _ _ rfl ?_ ?_
  · show Num.le (.fin 200000) (.fin 0) = false
    simp only [Num.le, decide_eq_false_iff_not]
    norm_num
  · show Num.lt (.fin 0)
      (Num.floor (Num.div (Num.sub (.fin 60000) (.fin 200000)) (.fin 60000))) = false
    rw [hsub]
    exact no_minute_of_nonpos _ (by norm_num)

/-- C7 amended: the handler has no guard of its own.  Called while the timer is
running it leaves the state alone exactly when the duration it computes is the
current one; otherwise it stops the timer and sets `duration` and `remaining`
to the new duration. -/
theorem handler_unguarded (s : Timer) (v : ℚ) (hr : s.running = true) :
    ((handleDurationChange v s).1 = s ↔ newDuration v = s.duration) ∧
      (newDuration v ≠ s.duration →
        (handleDurationChange v s).1.running = false ∧
        (handleDurationChange v s).1.duration = newDuration v ∧
        (handleDurationChange v s).1.remaining = newDuration v) := by
  have hne : newDuration v ≠ s.duration →
      (handleDurationChange v s).1.running = false ∧
      (handleDurationChange v s).1.duration = newDuration v ∧
      (handleDurationChange v s).1.remaining = newDuration v := by
    intro hd
    rw [handleDurationChange_eq, if_neg hd]
    exact announceEffect_cells _ _
  refine ⟨⟨fun h => ?_, fun h => ?_⟩, hne⟩
  · by_contra hd
    have h1 := (hne hd).1
    rw [h, hr] at h1
    exact absurd h1 (by simp)
  · rw [handleDurationChange_eq, if_pos h]

theorem handler_unguarded_witness :
    (handleDurationChange 1 { running := true, duration := .fin 300000,
                              remaining := .fin 200000, lastMinute := .fin 1 }).1.running =
      false :=
  ((handler_unguarded
      { running := true, duration := .fin 300000, remaining := .fin 200000,
        lastMinute := .fin 1 }
      1 rfl).2 (by rw [newDuration_one, ne_eq, Num.fin.injEq]; norm_num)).1

theorem startAndTick_one (D : Num) :
    (startAndTick D 1).1 = (step Cmd.tick { idle D with running := true }).1 := by
  rw [startAndTick_succ, startAndTick_zero]

/-- The remaining time after a tick of the interval. -/
theorem step_tick_remaining (s : Timer) (h : intervalActive s = true) :
    (step Cmd.tick s).1.remaining = Num.max (Num.sub s.remaining (.fin 1000)) (.fin 0) := by
  simp only [step, h, if_true]
  rw [tickCallback_eq]
  split_ifs with hs
  · exact hs.symm
  · exact (announceEffect_cells _ _).2.2

/-- Two million million minutes typed into the input give `1.2e17` ms. -/
theorem newDuration_big : newDuration 2000000000000 = .fin 120000000000000000 := by
  have h1 : round (2000000000000 : ℚ) = .fin 2000000000000 := by
    have := round_of_isDouble _ (isDouble_natCast 2000000000000 (by norm_num))
    norm_num at this
    exact this
  have h2 : round ((2000000000000 : ℚ) * 60) = .fin 120000000000000 := by
    have := round_of_isDouble _ (isDouble_natCast 120000000000000 (by norm_num))
    norm_num at this ⊢
    exact this
  have h3 : round ((120000000000000 : ℚ) * 1000) = .fin 120000000000000000 := by
    have hd : IsDouble (120000000000000000 : ℚ) :=
      ⟨457763671875, 18, by norm_num, by norm_num, by norm_num,
        small_lt_huge _ (by rw [abs_of_pos (by norm_num)]; norm_num)⟩
    have := round_of_isDouble _ hd
    norm_num at this ⊢
    exact this
  rw [newDuration, h1, max_fin, max_eq_right (by norm_num), mul_fin, h2, mul_fin, h3]

/-- C8 as stated fails at `D = 1.2e17` ms, which two million million minutes
typed into the input give: one tick leaves `119999999999999008`, not
`D - 1000`. -/
theorem tick_at_large_duration :
    newDuration 2000000000000 = .fin 120000000000000000 ∧
      (startAndTick (.fin 120000000000000000) 1).1.remaining = .fin 119999999999999008 ∧
      (119999999999999008 : ℚ) ≠ 120000000000000000 - 1000 * ((1 : ℕ) : ℚ) := by
  refine ⟨newDuration_big, ?_, by norm_num⟩
  rw [startAndTick_one, step_tick_remaining _
    (intervalActive_fin _ 120000000000000000 rfl rfl (by norm_num))]
  show Num.max (Num.sub (.fin 120000000000000000) (.fin 1000)) (.fin 0) = _
  simp only [Num.sub]
  rw [round_second_off_big, max_fin, max_eq_left (by norm_num)]

/-- C8 amended: for every duration `D` below `2 ^ 53` ms (a binary64 value) and
every `n` with `1000 * n < D`, after start and `n` ticks the remaining time is
`D - 1000 * n` and exactly `floor(n/60)` cues `Next bite` have been spoken,
and nothing else. -/
theorem ticks_before_the_end (D : ℚ) (hD : IsDouble D) (hlt : D < 2 ^ (53 : ℕ)) (n : ℕ)
    (h : 1000 * (n : ℚ) < D) :
    (startAndTick (.fin D) n).1.remaining = .fin (D - 1000 * (n : ℚ)) ∧
      (startAndTick (.fin D) n).2.count Cue.nextBite = n / 60 ∧
      (startAndTick (.fin D) n).2.length = n / 60 := by
  rw [startAndTick_counting D hD hlt n h]
  simp [List.count_replicate]

theorem ticks_before_the_end_witness :
    (startAndTick (.fin 300000) 60).1.remaining = .fin (300000 - 1000 * ((60 : ℕ) : ℚ)) ∧
      (startAndTick (.fin 300000) 60).2.count Cue.nextBite = 60 / 60 ∧
      (startAndTick (.fin 300000) 60).2.length = 60 / 60 :=
  ticks_before_the_end 300000 (by simpa using isDouble_natCast 300000 (by norm_num))
    (by norm_num) 60 (by norm_num)

/-- C9: a tick after which `remaining` is `0` speaks nothing, whatever the
state before it; and the one-minute run, start and 60 ticks, ends with
`remaining = 0` having spoken nothing at all. -/
theorem last_tick_is_silent :
    (∀ s : Timer, (step Cmd.tick s).1.remaining = .fin 0 → (step Cmd.tick s).2 = []) ∧
      startAndTick (.fin 60000) 60 =
        ({ running := true, duration := .fin 60000, remaining := .fin 0,
           lastMinute := .fin 0 }, []) := by
  refine ⟨fun s h => ?_, startAndTick_one_minute⟩
  cases ha : intervalActive s
  · rw [step_tick_idle s ha]
  · rw [step_tick_remaining s ha] at h
    simp only [step, ha, if_true]
    rw [tickCallback_eq]
    split_ifs with hs
    · rfl
    · rw [announceEffect_zero _ _ (by
        show Num.le (Num.max (Num.sub s.remaining (.fin 1000)) (.fin 0)) (.fin 0) = true
        rw [h]
        simp [Num.le])]

theorem last_tick_is_silent_witness :
    (step Cmd.tick { running := true, duration := .fin 60000, remaining := .fin 1000,
                     lastMinute := .fin 0 }).1.remaining = .fin 0 ∧
      (step Cmd.tick { running := true, duration := .fin 60000, remaining := .fin 1000,
                       lastMinute := .fin 0 }).2 = [] :=
  ⟨by rw [step_tick_last _ 1000 rfl rfl (by norm_num) (le_refl _)],
    last_tick_is_silent.1 _
      (by rw [step_tick_last _ 1000 rfl rfl (by norm_num) (le_refl _)])⟩

/-- C10, the code at the input 121: the duration becomes 121 minutes, above
the 120 minutes the input declares as its maximum. -/
theorem duration_above_maximum :
    (step (Cmd.setDuration 121) initial).1.duration = .fin 7260000 ∧
      ¬ Num.le (step (Cmd.setDuration 121) initial).1.duration (.fin (120 * 60000)) = true := by
  have hn : newDuration 121 = .fin 7260000 := by
    have h := newDuration_whole 121 (by norm_num) (by norm_num)
    norm_num at h
    exact h
  have e : step (Cmd.setDuration 121) initial = (idle (.fin 7260000), []) := by
    simp only [step, initial, Bool.false_eq_true, if_false]
    rw [handleDurationChange_stopped 121 _ rfl, hn]
    exact if_neg (by rw [Num.fin.injEq]; norm_num)
  rw [e]
  refine ⟨rfl, ?_⟩
  show ¬ Num.le (.fin 7260000) (.fin (120 * 60000)) = true
  simp only [Num.le, decide_eq_true_eq]
  norm_num

end NextBite
